import Mathlib

/-!
Shallow embedding of the `FileTree` class from `File_tree.py`.

Strings are modelled as `List Char`.  Path joining follows POSIX
`os.path.join` semantics (the platform which the repository tests target).
Python objects form a mutable graph, so nodes live in an explicit heap
(`Heap`, a list of `NodeData` indexed by allocation order) and every
operation is a function of the heap.  Recursive walks over parent or
child links are given explicit fuel, since relocation can in principle
create cycles (in which case Python raises `RecursionError`; the model
returns the corresponding error when fuel runs out).

The real filesystem is modelled by `FS`: a set of existing directories
(stored with trailing separators stripped) and a map from file paths to
contents.  `os.mkdir` and `open(path, "w").write` become `fsMkdir` and
`fsWrite`.
-/

namespace FileTreeModel

/-- Strings as lists of characters. -/
abbrev Str := List Char

/-- The POSIX path separator. -/
def sep : Char := '/'

/-- Two-argument POSIX `os.path.join`: an absolute second component
replaces the first; otherwise a separator is inserted unless the first
component is empty or already ends with one.  `os.path.join` with three
arguments is the left fold of this operation. -/
def pjoin (a b : Str) : Str :=
  if b.head? = some sep then b
  else if a = [] ∨ a.getLast? = some sep then a ++ b
  else a ++ sep :: b

/-- Python `dict.get`: value of the first (and, for genuine dicts, only)
entry with the given key. -/
def dictGet {α : Type} (d : List (Str × α)) (k : Str) : Option α :=
  match d with
  | [] => none
  | p :: rest => if p.1 = k then some p.2 else dictGet rest k

/-- Python `d[k] = v`: update the entry in place, keeping its position,
or append a new entry at the end (insertion order preserved). -/
def dictSet {α : Type} (d : List (Str × α)) (k : Str) (v : α) : List (Str × α) :=
  match d with
  | [] => [(k, v)]
  | p :: rest => if p.1 = k then (k, v) :: rest else p :: dictSet rest k v

/-- The `parent` attribute: a raw path string for a root node, a
reference to another node otherwise. -/
inductive Parent where
  | rootP (path : Str)
  | nodeP (pid : Nat)
deriving DecidableEq

/-- The attributes of one `FileTree` object. -/
structure NodeData where
  name : Str
  parent : Parent
  files : List (Str × Str)
  children : List (Str × Nat)
deriving DecidableEq

/-- The object heap: node ids are indices into this list. -/
abbrev Heap := List NodeData

/-- Mutate the node stored at index `i` (no-op on a dangling id, which
never occurs for heaps built by the operations below). -/
def updateNode (h : Heap) (i : Nat) (f : NodeData → NodeData) : Heap :=
  match h.get? i with
  | some nd => h.set i (f nd)
  | none => h

/-- An argument to `add_child`: a bare name or an existing node. -/
inductive ChildArg where
  | strArg (s : Str)
  | nodeArg (id : Nat)
deriving DecidableEq

/-- Errors raised by the modelled OS calls. -/
inductive IOErr where
  | fileExists (p : Str)
  | fileNotFound (p : Str)
deriving DecidableEq

/-- Python exceptions that escape the modelled methods. -/
inductive PyErr where
  | fileNotFoundError (fname : Str)
  | pathNotExists (cause : IOErr)
  | osError (cause : IOErr)
  | attributeError
  | keyError
  | recursionError
  | invalidRef
deriving DecidableEq

/-- `add_child(*child)`: a string argument allocates a fresh empty node
`FileTree(c, self)` and stores it under key `c`; a node argument has its
`parent` reassigned to `self` and is stored under its own `name`. -/
def add_child (h : Heap) (selfId : Nat) (args : List ChildArg) : Heap :=
  args.foldl
    (fun hAcc c =>
      match c with
      | ChildArg.strArg s =>
          let newId := hAcc.length
          let fresh : NodeData := ⟨s, Parent.nodeP selfId, [], []⟩
          updateNode (hAcc ++ [fresh]) selfId
            (fun self => ⟨self.name, self.parent, self.files, dictSet self.children s newId⟩)
      | ChildArg.nodeArg cid =>
          let hAcc2 := updateNode hAcc cid
            (fun cnd => ⟨cnd.name, Parent.nodeP selfId, cnd.files, cnd.children⟩)
          match hAcc2.get? cid with
          | some cnd => updateNode hAcc2 selfId
              (fun self => ⟨self.name, self.parent, self.files, dictSet self.children cnd.name cid⟩)
          | none => hAcc2)
    h

/-- `FileTree.__init__`.  With `children = None` the `else` branch sets
`self.children = {}` and the node is allocated.  With a non-`None`,
non-empty `children`, `__init__` calls `self.add_child(*children)` before
`self.children` is ever assigned, so the very first child insertion hits
an unset attribute and Python raises `AttributeError`.  (The warning for
a nonexistent root path is non-fatal and not modelled; an empty
`children` iterable leaves the half-built object without a `children`
attribute, modelled here as an empty child map.) -/
def FileTree_init (h : Heap) (name : Str) (parent : Parent)
    (files : Option (List (Str × Str))) (children : Option (List ChildArg)) :
    Except PyErr (Heap × Nat) :=
  match children with
  | none =>
      Except.ok (h ++ [⟨name, parent, files.getD [], []⟩], h.length)
  | some args =>
      if args.isEmpty then
        Except.ok (h ++ [⟨name, parent, files.getD [], []⟩], h.length)
      else Except.error PyErr.attributeError

/-- `add_file(**files)`: sequential `self.files[name] = content`. -/
def add_file (h : Heap) (i : Nat) (kwargs : List (Str × Str)) : Heap :=
  updateNode h i
    (fun nd => ⟨nd.name, nd.parent,
      kwargs.foldl (fun d p => dictSet d p.1 p.2) nd.files, nd.children⟩)

/-- `get_file_content(file_name)`; outer `Option` is heap lookup of the
receiver, inner `Option` is the Python return value. -/
def get_file_content (h : Heap) (i : Nat) (fname : Str) : Option (Option Str) :=
  (h.get? i).map (fun nd => dictGet nd.files fname)

/-- `__get_path_recursive(path)`: at a root return
`os.path.join(self.parent, self.name, path)`; otherwise recurse on the
parent with `os.path.join(self.name, path)`.  `none` models
`RecursionError` on a cyclic parent chain (fuel exhausted). -/
def get_path_recursive (h : Heap) : Nat → Nat → Str → Option Str
  | 0, _, _ => none
  | fuel + 1, i, acc =>
    match h.get? i with
    | none => none
    | some nd =>
      match nd.parent with
      | Parent.rootP p => some (pjoin (pjoin p nd.name) acc)
      | Parent.nodeP pid => get_path_recursive h fuel pid (pjoin nd.name acc)

/-- `get_path()`: the recursion started with the empty accumulator. -/
def get_path (h : Heap) (fuel i : Nat) : Option Str :=
  get_path_recursive h fuel i []

/-- `get_root_path()`: walk parents until the raw string. -/
def get_root_path (h : Heap) : Nat → Nat → Option Str
  | 0, _ => none
  | fuel + 1, i =>
    match h.get? i with
    | none => none
    | some nd =>
      match nd.parent with
      | Parent.rootP p => some p
      | Parent.nodeP pid => get_root_path h fuel pid

/-- `get_root()`: walk parents until the node whose parent is a raw
string, and return that node (as its heap id). -/
def get_root (h : Heap) : Nat → Nat → Option Nat
  | 0, _ => none
  | fuel + 1, i =>
    match h.get? i with
    | none => none
    | some nd =>
      match nd.parent with
      | Parent.rootP _ => some i
      | Parent.nodeP pid => get_root h fuel pid

/-- `get_child(name)`. -/
def get_child (h : Heap) (i : Nat) (name : Str) : Option (Option Nat) :=
  (h.get? i).map (fun nd => dictGet nd.children name)

/-- `get_file_path(file_name)`: `None` if the name is not registered,
otherwise `os.path.join(self.get_path(), file_name)`. -/
def get_file_path (h : Heap) (fuel i : Nat) (fname : Str) : Option Str :=
  match h.get? i with
  | none => none
  | some nd =>
    match dictGet nd.files fname with
    | none => none
    | some _ => (get_path h fuel i).map (fun p => pjoin p fname)

/-- The modelled filesystem: existing directories (paths normalised by
stripping trailing separators) and written files (full path to content). -/
structure FS where
  dirs : List Str
  files : List (Str × Str)
deriving DecidableEq

/-- Strip trailing separators (how the model canonicalises a directory
path before storing or looking it up). -/
def normPath (p : Str) : Str :=
  (p.reverse.dropWhile (fun c => c = sep)).reverse

/-- The containing directory of a normalised path: everything before the
last separator, normalised. -/
def parentDir (q : Str) : Str :=
  normPath ((q.reverse.dropWhile (fun c => ¬ c = sep)).reverse)

/-- `os.mkdir`: fails if the path already exists (directory or file),
fails if the containing directory is missing, otherwise records the new
directory.  No recursive creation, no exist-ok flag. -/
def fsMkdir (fs : FS) (p : Str) : FS × Option IOErr :=
  let q := normPath p
  if q ∈ fs.dirs ∨ (dictGet fs.files q).isSome then
    (fs, some (IOErr.fileExists p))
  else if parentDir q ∈ fs.dirs then
    (⟨q :: fs.dirs, fs.files⟩, none)
  else (fs, some (IOErr.fileNotFound p))

/-- `open(path, "w")` followed by `write(content)`: succeeds iff the
containing directory exists, creating or truncating the file. -/
def fsWrite (fs : FS) (path content : Str) : FS × Option IOErr :=
  if parentDir (normPath path) ∈ fs.dirs then
    (⟨fs.dirs, dictSet fs.files path content⟩, none)
  else (fs, some (IOErr.fileNotFound path))

/-- `create_file(file_name)`, parameterised by the write primitive `wr`
(instantiated with `fsWrite` by `mkTree`).  `if not file_path` is true
both for `None` and for the empty string.  Any failure of the write is
re-raised as `PathNotExists(msg, e)`, carrying the original exception
`e`.  The method never mutates the node, so the heap is read-only here;
the returned `FS` is unchanged whenever `wr` was never invoked or failed
without effect. -/
def create_file (wr : FS → Str → Str → FS × Option IOErr) (h : Heap) (fs : FS)
    (fuel i : Nat) (fname : Str) : FS × Option PyErr :=
  match get_file_path h fuel i fname with
  | none => (fs, some (PyErr.fileNotFoundError fname))
  | some fp =>
    if fp = [] then (fs, some (PyErr.fileNotFoundError fname))
    else
      match h.get? i with
      | none => (fs, some PyErr.invalidRef)
      | some nd =>
        match dictGet nd.files fname with
        | none => (fs, some PyErr.keyError)
        | some content =>
          match wr fs fp content with
          | (fs2, none) => (fs2, none)
          | (fs2, some e) => (fs2, some (PyErr.pathNotExists e))

/-- Run an effectful step over a list, stopping at the first error (how
the `for` loops in `__mkdir__` and `__mkTree__` behave when a call
raises). -/
def seqLoop {α : Type} (step : FS → α → FS × Option PyErr) :
    FS → List α → FS × Option PyErr
  | fs, [] => (fs, none)
  | fs, x :: xs =>
    match step fs x with
    | (fs2, none) => seqLoop step fs2 xs
    | (fs2, some e) => (fs2, some e)

/-- `__mkdir__`: `os.mkdir(self.get_path())`, then recurse into the
children in insertion order.  `pfuel` bounds the parent walks inside
`get_path`, `fuel` the descent. -/
def mkdirRec (h : Heap) (pfuel : Nat) : Nat → FS → Nat → FS × Option PyErr
  | 0, fs, _ => (fs, some PyErr.recursionError)
  | fuel + 1, fs, i =>
    match h.get? i with
    | none => (fs, some PyErr.invalidRef)
    | some nd =>
      match get_path h pfuel i with
      | none => (fs, some PyErr.recursionError)
      | some p =>
        match fsMkdir fs p with
        | (fs1, some e) => (fs1, some (PyErr.osError e))
        | (fs1, none) =>
            seqLoop (fun fs2 c => mkdirRec h pfuel fuel fs2 c.2) fs1 nd.children

/-- `mkdir()`: `self.get_root().__mkdir__()`. -/
def mkdir (h : Heap) (pfuel fuel : Nat) (fs : FS) (i : Nat) : FS × Option PyErr :=
  match get_root h pfuel i with
  | none => (fs, some PyErr.recursionError)
  | some r => mkdirRec h pfuel fuel fs r

/-- `__mkTree__`: `os.mkdir(self.get_path())`, then `create_file` for
every registered file name in insertion order, then recurse into the
children in insertion order. -/
def mkTreeRec (h : Heap) (pfuel : Nat) : Nat → FS → Nat → FS × Option PyErr
  | 0, fs, _ => (fs, some PyErr.recursionError)
  | fuel + 1, fs, i =>
    match h.get? i with
    | none => (fs, some PyErr.invalidRef)
    | some nd =>
      match get_path h pfuel i with
      | none => (fs, some PyErr.recursionError)
      | some p =>
        match fsMkdir fs p with
        | (fs1, some e) => (fs1, some (PyErr.osError e))
        | (fs1, none) =>
          match seqLoop (fun fs2 fn => create_file fsWrite h fs2 pfuel i fn) fs1
              (nd.files.map Prod.fst) with
          | (fs2, some e) => (fs2, some e)
          | (fs2, none) =>
              seqLoop (fun fs3 c => mkTreeRec h pfuel fuel fs3 c.2) fs2 nd.children

/-- `mkTree()`: `self.get_root().__mkTree__()`. -/
def mkTree (h : Heap) (pfuel fuel : Nat) (fs : FS) (i : Nat) : FS × Option PyErr :=
  match get_root h pfuel i with
  | none => (fs, some PyErr.recursionError)
  | some r => mkTreeRec h pfuel fuel fs r

/-- A well-formed directory name: nonempty and free of separators. -/
def goodName (s : Str) : Prop := s ≠ [] ∧ sep ∉ s

instance (s : Str) : Decidable (goodName s) := by
  unfold goodName; infer_instance

/-- The parent chain from `i` reaches a root within `fuel` steps and
every node name along the way (the root included) is well-formed. -/
def chainGood (h : Heap) : Nat → Nat → Bool
  | 0, _ => false
  | fuel + 1, i =>
    match h.get? i with
    | none => false
    | some nd =>
      decide (goodName nd.name) &&
        match nd.parent with
        | Parent.rootP _ => true
        | Parent.nodeP pid => chainGood h fuel pid

/-- The parent chain from `i` reaches the root node `r` (whose raw path
string is `p`) in exactly `k` steps. -/
inductive RootedAt (h : Heap) : Nat → Nat → Str → Nat → Prop where
  | base (i : Nat) (nd : NodeData) (p : Str) :
      h.get? i = some nd → nd.parent = Parent.rootP p → RootedAt h i i p 0
  | step (i pid r : Nat) (nd : NodeData) (p : Str) (k : Nat) :
      h.get? i = some nd → nd.parent = Parent.nodeP pid →
      RootedAt h pid r p k → RootedAt h i r p (k + 1)

/-- The value the last entry of a kwargs list assigns to `k`, if any. -/
def lastVal (l : List (Str × Str)) (k : Str) : Option Str :=
  match l with
  | [] => none
  | p :: rest =>
    match lastVal rest k with
    | some c => some c
    | none => if p.1 = k then some p.2 else none

/-! ### Helper lemmas about characters at the ends of strings -/

lemma head?_mem {s : Str} {c : Char} (hc : s.head? = some c) : c ∈ s := by
  cases s with
  | nil => simp at hc
  | cons a t =>
    simp only [List.head?_cons, Option.some.injEq] at hc
    subst hc
    exact List.mem_cons_self _ _

lemma getLast?_mem {s : Str} {c : Char} (hc : s.getLast? = some c) : c ∈ s := by
  rw [List.getLast?_eq_head?_reverse] at hc
  have hm := head?_mem hc
  simpa using hm

lemma good_head {s : Str} (hg : goodName s) : s.head? ≠ some sep := by
  intro hc
  exact hg.2 (head?_mem hc)

lemma good_last {s : Str} (hg : goodName s) : s.getLast? ≠ some sep := by
  intro hc
  exact hg.2 (getLast?_mem hc)

/-! ### Helper lemmas about `pjoin` -/

/-- Shifting a non-absolute accumulator out of a join. -/
lemma pjoin_append {q s : Str} (hq : q ≠ []) (hs : s.head? ≠ some sep) :
    pjoin q s = pjoin q [] ++ s := by
  by_cases hlast : q.getLast? = some sep
  · have h1 : pjoin q s = q ++ s := by
      unfold pjoin
      rw [if_neg hs, if_pos (Or.inr hlast)]
    have h2 : pjoin q [] = q := by
      unfold pjoin
      rw [if_neg (by simp), if_pos (Or.inr hlast)]
      simp
    rw [h1, h2]
  · have h1 : pjoin q s = q ++ sep :: s := by
      unfold pjoin
      rw [if_neg hs, if_neg (by simp [hq, hlast])]
    have h2 : pjoin q [] = q ++ [sep] := by
      unfold pjoin
      rw [if_neg (by simp), if_neg (by simp [hq, hlast])]
    rw [h1, h2]
    simp

/-- Joining a well-formed name on the right gives a nonempty result whose
last character is the last character of the name. -/
lemma pjoin_good_last {n : Str} (hg : goodName n) (a : Str) :
    pjoin a n ≠ [] ∧ (pjoin a n).getLast? = n.getLast? := by
  obtain ⟨c, hc⟩ : ∃ c, n.getLast? = some c := by
    cases hn : n.getLast? with
    | none => exact absurd (List.getLast?_eq_none_iff.mp hn) hg.1
    | some c => exact ⟨c, rfl⟩
  unfold pjoin
  rw [if_neg (good_head hg)]
  by_cases hcond : a = [] ∨ a.getLast? = some sep
  · rw [if_pos hcond]
    refine ⟨by simp [hg.1], ?_⟩
    rw [List.getLast?_append, hc]
    rfl
  · rw [if_neg hcond]
    refine ⟨by simp, ?_⟩
    have hsplit : a ++ sep :: n = (a ++ [sep]) ++ n := by simp
    rw [hsplit, List.getLast?_append, hc]
    rfl

/-- Joining a well-formed name on the left of `[]` appends one separator. -/
lemma pjoin_good_nil {n : Str} (hg : goodName n) : pjoin n [] = n ++ [sep] := by
  unfold pjoin
  rw [if_neg (by simp), if_neg (by simp [hg.1, good_last hg])]

/-- A join whose left part already ends with a separator is plain
concatenation (no duplicate separator inserted). -/
lemma pjoin_ends_sep {p n : Str} (hp : p.getLast? = some sep) (hn : n.head? ≠ some sep) :
    pjoin p n = p ++ n := by
  have hpne : p ≠ [] := by
    intro hnil
    rw [hnil] at hp
    simp at hp
  unfold pjoin
  rw [if_neg hn, if_pos (Or.inr hp)]

/-- The else-branch of `pjoin`, under explicit conditions. -/
lemma pjoin_cons_of_not {q b : Str} (hb : b.head? ≠ some sep) (h1 : q ≠ [])
    (h2 : q.getLast? ≠ some sep) : pjoin q b = q ++ sep :: b := by
  unfold pjoin
  rw [if_neg hb, if_neg (by simp [h1, h2])]

/-- A valid accumulator for `get_path_recursive`: empty, or ending with a
separator and not starting with one. -/
def accOK (acc : Str) : Prop :=
  acc = [] ∨ (acc.getLast? = some sep ∧ acc.head? ≠ some sep)

/-- Prepending a well-formed name keeps the accumulator valid (and makes
it nonempty and separator-terminated). -/
lemma pjoin_accOK {n acc : Str} (hg : goodName n) (ha : accOK acc) :
    (pjoin n acc).getLast? = some sep ∧ (pjoin n acc).head? ≠ some sep := by
  obtain ⟨c, hc⟩ : ∃ c, n.head? = some c := by
    cases hn : n.head? with
    | none => exact absurd (by simpa using hn) hg.1
    | some c => exact ⟨c, rfl⟩
  have hcne : c ≠ sep := by
    intro he
    exact hg.2 (he ▸ head?_mem hc)
  cases ha with
  | inl hnil =>
    subst hnil
    rw [pjoin_good_nil hg]
    constructor
    · exact List.getLast?_concat _
    · rw [List.head?_append, hc]
      simpa using hcne
  | inr hend =>
    obtain ⟨hlast, hhead⟩ := hend
    have hstep : pjoin n acc = n ++ sep :: acc := by
      unfold pjoin
      rw [if_neg hhead, if_neg (by simp [hg.1, good_last hg])]
    rw [hstep]
    constructor
    · have hsplit : n ++ sep :: acc = (n ++ [sep]) ++ acc := by simp
      rw [hsplit, List.getLast?_append, hlast]
      rfl
    · rw [List.head?_append, hc]
      simpa using hcne

/-! ### Main lemmas about the recursive path computation -/

/-- Destructing one level of `chainGood`. -/
lemma chainGood_succ {h : Heap} {fuel i : Nat} {nd : NodeData}
    (hnd : h.get? i = some nd) (hcg : chainGood h (fuel + 1) i = true) :
    goodName nd.name ∧
      (∀ pid, nd.parent = Parent.nodeP pid → chainGood h fuel pid = true) := by
  unfold chainGood at hcg
  rw [hnd] at hcg
  rw [Bool.and_eq_true, decide_eq_true_eq] at hcg
  refine ⟨hcg.1, ?_⟩
  intro pid hp
  have hr := hcg.2
  rw [hp] at hr
  exact hr

/-- On a well-formed chain, every path produced by the recursion ends
with a separator. -/
lemma get_path_recursive_last (h : Heap) :
    ∀ fuel i, chainGood h fuel i = true → ∀ acc, accOK acc →
    ∀ r, get_path_recursive h fuel i acc = some r → r.getLast? = some sep := by
  intro fuel
  induction fuel with
  | zero =>
    intro i hcg
    exact absurd hcg (by simp [chainGood])
  | succ fuel ih =>
    intro i hcg acc hacc r hr
    cases hnd : h.get? i with
    | none =>
      unfold chainGood at hcg
      rw [hnd] at hcg
      exact absurd hcg (by simp)
    | some nd =>
      obtain ⟨hgn, hrest⟩ := chainGood_succ hnd hcg
      cases hp : nd.parent with
      | rootP p =>
        simp only [get_path_recursive, hnd, hp] at hr
        obtain ⟨hqne, hqlast⟩ := pjoin_good_last hgn p
        have hqsep : (pjoin p nd.name).getLast? ≠ some sep := by
          rw [hqlast]
          exact good_last hgn
        cases hacc with
        | inl hnil =>
          subst hnil
          have hstep : pjoin (pjoin p nd.name) [] = pjoin p nd.name ++ [sep] :=
            pjoin_cons_of_not (by simp) hqne hqsep
          rw [hstep] at hr
          injection hr with hr
          rw [← hr]
          exact List.getLast?_concat _
        | inr hend =>
          obtain ⟨hlast, hhead⟩ := hend
          have hstep : pjoin (pjoin p nd.name) acc = pjoin p nd.name ++ sep :: acc :=
            pjoin_cons_of_not hhead hqne hqsep
          rw [hstep] at hr
          injection hr with hr
          have hsplit : pjoin p nd.name ++ sep :: acc = (pjoin p nd.name ++ [sep]) ++ acc := by
            simp
          rw [← hr, hsplit, List.getLast?_append, hlast]
          rfl
      | nodeP pid =>
        simp only [get_path_recursive, hnd, hp] at hr
        have hcgp := hrest pid hp
        have haccn : accOK (pjoin nd.name acc) :=
          Or.inr (pjoin_accOK hgn hacc)
        exact ih pid hcgp (pjoin nd.name acc) haccn r hr

/-- On a well-formed chain, the accumulator factors out of the recursion
as a plain suffix. -/
lemma get_path_recursive_shift (h : Heap) :
    ∀ fuel i, chainGood h fuel i = true → ∀ acc, acc.head? ≠ some sep →
    get_path_recursive h fuel i acc =
      (get_path_recursive h fuel i []).map (fun q => q ++ acc) := by
  intro fuel
  induction fuel with
  | zero =>
    intro i hcg
    exact absurd hcg (by simp [chainGood])
  | succ fuel ih =>
    intro i hcg acc hacc
    cases hnd : h.get? i with
    | none =>
      unfold chainGood at hcg
      rw [hnd] at hcg
      exact absurd hcg (by simp)
    | some nd =>
      obtain ⟨hgn, hrest⟩ := chainGood_succ hnd hcg
      cases hp : nd.parent with
      | rootP p =>
        simp only [get_path_recursive, hnd, hp]
        obtain ⟨hqne, _⟩ := pjoin_good_last hgn p
        rw [pjoin_append hqne hacc]
        rfl
      | nodeP pid =>
        simp only [get_path_recursive, hnd, hp]
        have hcgp := hrest pid hp
        have hname_head : ∀ t : Str, t.head? ≠ some sep →
            (pjoin nd.name t).head? ≠ some sep := by
          intro t hth ht
          obtain ⟨c, hc⟩ : ∃ c, nd.name.head? = some c := by
            cases hx : nd.name.head? with
            | none => exact absurd (by simpa using hx) hgn.1
            | some c => exact ⟨c, rfl⟩
          have hcne : c ≠ sep := fun he => hgn.2 (he ▸ head?_mem hc)
          have hcases : pjoin nd.name t = nd.name ++ t ∨
              pjoin nd.name t = nd.name ++ sep :: t := by
            unfold pjoin
            rw [if_neg hth]
            by_cases hcond : nd.name = [] ∨ nd.name.getLast? = some sep
            · rw [if_pos hcond]; exact Or.inl rfl
            · rw [if_neg hcond]; exact Or.inr rfl
          cases hcases with
          | inl he =>
            rw [he, List.head?_append, hc] at ht
            exact hcne (by simpa using ht)
          | inr he =>
            rw [he, List.head?_append, hc] at ht
            exact hcne (by simpa using ht)
        have h1 := ih pid hcgp (pjoin nd.name acc) (hname_head acc hacc)
        have h2 := ih pid hcgp (pjoin nd.name []) (hname_head [] (by simp))
        rw [h1, h2]
        have hjoin : pjoin nd.name acc = pjoin nd.name [] ++ acc :=
          pjoin_append hgn.1 hacc
        cases hbase : get_path_recursive h fuel pid [] with
        | none => rfl
        | some q =>
          simp [hjoin]

/-- A well-formed name has a non-separator first character. -/
lemma good_head_some {s : Str} (hg : goodName s) :
    ∃ c, s.head? = some c ∧ c ≠ sep := by
  cases s with
  | nil => exact absurd rfl hg.1
  | cons a t =>
    refine ⟨a, rfl, ?_⟩
    intro he
    exact hg.2 (he ▸ List.mem_cons_self _ _)

/-- Wrapper for `get_path`: every computed path ends with a separator. -/
lemma get_path_last {h : Heap} {fuel i : Nat} {p : Str}
    (hcg : chainGood h fuel i = true) (hp : get_path h fuel i = some p) :
    p.getLast? = some sep :=
  get_path_recursive_last h fuel i hcg [] (Or.inl rfl) p hp

/-- Path of a root node: `pjoin` of the raw string and the name, plus a
trailing separator (the trailing separator comes from the final empty
segment passed to `os.path.join`). -/
lemma get_path_root {h : Heap} {i fuel : Nat} {nd : NodeData} {p : Str}
    (hnd : h.get? i = some nd) (hp : nd.parent = Parent.rootP p)
    (hgn : goodName nd.name) :
    get_path h (fuel + 1) i = some (pjoin p nd.name ++ [sep]) := by
  unfold get_path
  simp only [get_path_recursive, hnd, hp]
  obtain ⟨hqne, hqlast⟩ := pjoin_good_last hgn p
  rw [pjoin_cons_of_not (by simp) hqne (by rw [hqlast]; exact good_last hgn)]

/-- Path of an interior node: the path of the parent, then the name, then
a trailing separator. -/
lemma get_path_step {h : Heap} {i pid fuel : Nat} {nd : NodeData} {pp : Str}
    (hnd : h.get? i = some nd) (hp : nd.parent = Parent.nodeP pid)
    (hgn : goodName nd.name) (hcg : chainGood h fuel pid = true)
    (hpp : get_path h fuel pid = some pp) :
    get_path h (fuel + 1) i = some (pp ++ nd.name ++ [sep]) := by
  unfold get_path at hpp ⊢
  have h1 : get_path_recursive h (fuel + 1) i [] =
      get_path_recursive h fuel pid (pjoin nd.name []) := by
    simp only [get_path_recursive, hnd, hp]
  obtain ⟨c, hc, hcne⟩ := good_head_some hgn
  have hhead : (nd.name ++ [sep]).head? ≠ some sep := by
    rw [List.head?_append, hc]
    simpa using hcne
  rw [h1, pjoin_good_nil hgn,
    get_path_recursive_shift h fuel pid hcg _ hhead, hpp]
  simp

/-! ### Dictionary lemmas -/

lemma dictGet_dictSet_self {α : Type} (d : List (Str × α)) (k : Str) (v : α) :
    dictGet (dictSet d k v) k = some v := by
  induction d with
  | nil => simp [dictGet, dictSet]
  | cons p rest ih =>
    by_cases hk : p.1 = k
    · simp [dictSet, dictGet, hk]
    · simp [dictSet, dictGet, hk, ih]

lemma dictGet_dictSet_ne {α : Type} (d : List (Str × α)) {k k2 : Str}
    (hne : k2 ≠ k) (v : α) : dictGet (dictSet d k v) k2 = dictGet d k2 := by
  induction d with
  | nil => simp [dictGet, dictSet, Ne.symm hne]
  | cons p rest ih =>
    by_cases hk : p.1 = k
    · simp [dictSet, dictGet, hk, Ne.symm hne]
    · by_cases hk2 : p.1 = k2
      · simp [dictSet, dictGet, hk, hk2, hne]
      · simp [dictSet, dictGet, hk, hk2, ih]

lemma dictGet_dictSet_isSome {α : Type} (d : List (Str × α)) (k k2 : Str) (v : α)
    (hs : (dictGet d k2).isSome = true) :
    (dictGet (dictSet d k v) k2).isSome = true := by
  by_cases he : k2 = k
  · subst he
    rw [dictGet_dictSet_self]
    rfl
  · rw [dictGet_dictSet_ne _ he]
    exact hs

/-! ### Heap update lemmas -/

lemma updateNode_get_self {h : Heap} {i : Nat} {nd : NodeData}
    (hnd : h.get? i = some nd) (f : NodeData → NodeData) :
    (updateNode h i f).get? i = some (f nd) := by
  unfold updateNode
  rw [hnd]
  obtain ⟨hlt, _⟩ := List.get?_eq_some.mp hnd
  exact List.get?_set_eq_of_lt _ hlt

lemma updateNode_get_ne {h : Heap} {i j : Nat} (hne : i ≠ j)
    (f : NodeData → NodeData) : (updateNode h i f).get? j = h.get? j := by
  unfold updateNode
  cases hnd : h.get? i with
  | none => rfl
  | some nd => exact List.get?_set_ne _ _ hne

lemma updateNode_length {h : Heap} {i : Nat} (f : NodeData → NodeData) :
    (updateNode h i f).length = h.length := by
  unfold updateNode
  cases h.get? i with
  | none => rfl
  | some nd => exact List.length_set _ _ _

/-! ### kwargs fold lemma for `add_file` -/

lemma dictGet_foldl_dictSet (l : List (Str × Str)) :
    ∀ (d : List (Str × Str)) (k : Str),
    dictGet (l.foldl (fun d2 p => dictSet d2 p.1 p.2) d) k =
      match lastVal l k with
      | some c => some c
      | none => dictGet d k := by
  induction l with
  | nil => intro d k; simp [lastVal]
  | cons p rest ih =>
    intro d k
    have hstep : (p :: rest).foldl (fun d2 q => dictSet d2 q.1 q.2) d =
        rest.foldl (fun d2 q => dictSet d2 q.1 q.2) (dictSet d p.1 p.2) := rfl
    rw [hstep, ih]
    cases hrest : lastVal rest k with
    | some c => simp [lastVal, hrest]
    | none =>
      simp only [lastVal, hrest]
      by_cases hk : p.1 = k
      · subst hk
        rw [dictGet_dictSet_self]
        simp
      · rw [dictGet_dictSet_ne _ (fun he => hk he.symm)]
        simp [hk]

/-! ### Filesystem growth: directories and files are never removed -/

/-- `a` evolves into `b` without losing directories or files. -/
def FSle (a b : FS) : Prop :=
  (∀ p, p ∈ a.dirs → p ∈ b.dirs) ∧
  (∀ k, (dictGet a.files k).isSome = true → (dictGet b.files k).isSome = true)

lemma FSle_refl (a : FS) : FSle a a := ⟨fun _ hp => hp, fun _ hk => hk⟩

lemma FSle_trans {a b c : FS} (h1 : FSle a b) (h2 : FSle b c) : FSle a c :=
  ⟨fun p hp => h2.1 p (h1.1 p hp), fun k hk => h2.2 k (h1.2 k hk)⟩

/-- A property preserved by every step of a loop is preserved by the
whole loop, error or not. -/
lemma seqLoop_rel {α : Type} (step : FS → α → FS × Option PyErr)
    (hstep : ∀ fs x, FSle fs (step fs x).1) :
    ∀ l fs, FSle fs (seqLoop step fs l).1 := by
  intro l
  induction l with
  | nil => intro fs; exact FSle_refl fs
  | cons x xs ih =>
    intro fs
    have hstep1 : FSle fs (step fs x).1 := hstep fs x
    cases hs : step fs x with
    | mk fs2 r =>
      rw [hs] at hstep1
      cases r with
      | none =>
        have heq : seqLoop step fs (x :: xs) = seqLoop step fs2 xs := by
          simp only [seqLoop, hs]
        rw [heq]
        exact FSle_trans hstep1 (ih fs2)
      | some e =>
        have heq : seqLoop step fs (x :: xs) = (fs2, some e) := by
          simp only [seqLoop, hs]
        rw [heq]
        exact hstep1

lemma fsMkdir_le (fs : FS) (p : Str) : FSle fs (fsMkdir fs p).1 := by
  unfold fsMkdir
  by_cases h1 : normPath p ∈ fs.dirs ∨ (dictGet fs.files (normPath p)).isSome = true
  · rw [if_pos h1]
    exact FSle_refl fs
  · rw [if_neg h1]
    by_cases h2 : parentDir (normPath p) ∈ fs.dirs
    · rw [if_pos h2]
      exact ⟨fun q hq => List.mem_cons_of_mem _ hq, fun k hk => hk⟩
    · rw [if_neg h2]
      exact FSle_refl fs

lemma fsWrite_le (fs : FS) (path content : Str) :
    FSle fs (fsWrite fs path content).1 := by
  unfold fsWrite
  by_cases h1 : parentDir (normPath path) ∈ fs.dirs
  · rw [if_pos h1]
    exact ⟨fun q hq => hq, fun k hk => dictGet_dictSet_isSome _ _ _ _ hk⟩
  · rw [if_neg h1]
    exact FSle_refl fs

lemma create_file_le (wr : FS → Str → Str → FS × Option IOErr)
    (hwr : ∀ fs p c, FSle fs (wr fs p c).1) (h : Heap) (fs : FS)
    (fuel i : Nat) (fname : Str) :
    FSle fs (create_file wr h fs fuel i fname).1 := by
  cases hgf : get_file_path h fuel i fname with
  | none =>
    have heq : create_file wr h fs fuel i fname =
        (fs, some (PyErr.fileNotFoundError fname)) := by
      simp only [create_file, hgf]
    rw [heq]
    exact FSle_refl fs
  | some fp =>
    by_cases hfp : fp = []
    · have heq : create_file wr h fs fuel i fname =
          (fs, some (PyErr.fileNotFoundError fname)) := by
        simp only [create_file, hgf]
        rw [if_pos hfp]
      rw [heq]
      exact FSle_refl fs
    · cases hnd : h.get? i with
      | none =>
        have heq : create_file wr h fs fuel i fname = (fs, some PyErr.invalidRef) := by
          simp only [create_file, hgf, hnd]
          rw [if_neg hfp]
        rw [heq]
        exact FSle_refl fs
      | some nd =>
        cases hdg : dictGet nd.files fname with
        | none =>
          have heq : create_file wr h fs fuel i fname = (fs, some PyErr.keyError) := by
            simp only [create_file, hgf, hnd, hdg]
            rw [if_neg hfp]
          rw [heq]
          exact FSle_refl fs
        | some content =>
          have hw : FSle fs (wr fs fp content).1 := hwr fs fp content
          cases hws : wr fs fp content with
          | mk fs2 r =>
            rw [hws] at hw
            cases r with
            | none =>
              have heq : create_file wr h fs fuel i fname = (fs2, none) := by
                simp only [create_file, hgf, hnd, hdg, hws]
                rw [if_neg hfp]
              rw [heq]
              exact hw
            | some e =>
              have heq : create_file wr h fs fuel i fname =
                  (fs2, some (PyErr.pathNotExists e)) := by
                simp only [create_file, hgf, hnd, hdg, hws]
                rw [if_neg hfp]
              rw [heq]
              exact hw

lemma mkTreeRec_le (h : Heap) (pfuel : Nat) :
    ∀ fuel fs i, FSle fs (mkTreeRec h pfuel fuel fs i).1 := by
  intro fuel
  induction fuel with
  | zero => intro fs i; exact FSle_refl fs
  | succ fuel ih =>
    intro fs i
    cases hnd : h.get? i with
    | none =>
      have heq : mkTreeRec h pfuel (fuel + 1) fs i = (fs, some PyErr.invalidRef) := by
        simp only [mkTreeRec, hnd]
      rw [heq]
      exact FSle_refl fs
    | some nd =>
      cases hp : get_path h pfuel i with
      | none =>
        have heq : mkTreeRec h pfuel (fuel + 1) fs i =
            (fs, some PyErr.recursionError) := by
          simp only [mkTreeRec, hnd, hp]
        rw [heq]
        exact FSle_refl fs
      | some p =>
        have hmk : FSle fs (fsMkdir fs p).1 := fsMkdir_le fs p
        cases hmks : fsMkdir fs p with
        | mk fs1 r1 =>
          rw [hmks] at hmk
          cases r1 with
          | some e =>
            have heq : mkTreeRec h pfuel (fuel + 1) fs i =
                (fs1, some (PyErr.osError e)) := by
              simp only [mkTreeRec, hnd, hp, hmks]
            rw [heq]
            exact hmk
          | none =>
            have hfiles : FSle fs1
                (seqLoop (fun fs2 fn => create_file fsWrite h fs2 pfuel i fn) fs1
                  (nd.files.map Prod.fst)).1 :=
              seqLoop_rel _ (fun fs2 (fn : Str) => create_file_le fsWrite fsWrite_le h fs2 pfuel i fn)
                _ fs1
            cases hfs : seqLoop (fun fs2 fn => create_file fsWrite h fs2 pfuel i fn) fs1
                (nd.files.map Prod.fst) with
            | mk fs2 r2 =>
              rw [hfs] at hfiles
              cases r2 with
              | some e =>
                have heq : mkTreeRec h pfuel (fuel + 1) fs i = (fs2, some e) := by
                  simp only [mkTreeRec, hnd, hp, hmks, hfs]
                rw [heq]
                exact FSle_trans hmk hfiles
              | none =>
                have hchild : FSle fs2
                    (seqLoop (fun fs3 c => mkTreeRec h pfuel fuel fs3 c.2) fs2
                      nd.children).1 :=
                  seqLoop_rel _ (fun fs3 (c : Str × Nat) => ih fs3 c.2) _ fs2
                have heq : mkTreeRec h pfuel (fuel + 1) fs i =
                    seqLoop (fun fs3 c => mkTreeRec h pfuel fuel fs3 c.2) fs2
                      nd.children := by
                  simp only [mkTreeRec, hnd, hp, hmks, hfs]
                rw [heq]
                exact FSle_trans hmk (FSle_trans hfiles hchild)

lemma mkdirRec_le (h : Heap) (pfuel : Nat) :
    ∀ fuel fs i, FSle fs (mkdirRec h pfuel fuel fs i).1 := by
  intro fuel
  induction fuel with
  | zero => intro fs i; exact FSle_refl fs
  | succ fuel ih =>
    intro fs i
    cases hnd : h.get? i with
    | none =>
      have heq : mkdirRec h pfuel (fuel + 1) fs i = (fs, some PyErr.invalidRef) := by
        simp only [mkdirRec, hnd]
      rw [heq]
      exact FSle_refl fs
    | some nd =>
      cases hp : get_path h pfuel i with
      | none =>
        have heq : mkdirRec h pfuel (fuel + 1) fs i =
            (fs, some PyErr.recursionError) := by
          simp only [mkdirRec, hnd, hp]
        rw [heq]
        exact FSle_refl fs
      | some p =>
        have hmk : FSle fs (fsMkdir fs p).1 := fsMkdir_le fs p
        cases hmks : fsMkdir fs p with
        | mk fs1 r1 =>
          rw [hmks] at hmk
          cases r1 with
          | some e =>
            have heq : mkdirRec h pfuel (fuel + 1) fs i =
                (fs1, some (PyErr.osError e)) := by
              simp only [mkdirRec, hnd, hp, hmks]
            rw [heq]
            exact hmk
          | none =>
            have hchild : FSle fs1
                (seqLoop (fun fs2 c => mkdirRec h pfuel fuel fs2 c.2) fs1
                  nd.children).1 :=
              seqLoop_rel _ (fun fs2 (c : Str × Nat) => ih fs2 c.2) _ fs1
            have heq : mkdirRec h pfuel (fuel + 1) fs i =
                seqLoop (fun fs2 c => mkdirRec h pfuel fuel fs2 c.2) fs1
                  nd.children := by
              simp only [mkdirRec, hnd, hp, hmks]
            rw [heq]
            exact FSle_trans hmk hchild

/-- A successful `fsMkdir` records the (normalised) new directory. -/
lemma fsMkdir_ok_mem {fs fs1 : FS} {p : Str}
    (hc : fsMkdir fs p = (fs1, none)) : normPath p ∈ fs1.dirs := by
  unfold fsMkdir at hc
  by_cases h1 : normPath p ∈ fs.dirs ∨ (dictGet fs.files (normPath p)).isSome = true
  · rw [if_pos h1] at hc
    exact absurd (congrArg Prod.snd hc) (by simp)
  · rw [if_neg h1] at hc
    by_cases h2 : parentDir (normPath p) ∈ fs.dirs
    · rw [if_pos h2] at hc
      have hfs : (⟨normPath p :: fs.dirs, fs.files⟩ : FS) = fs1 := congrArg Prod.fst hc
      rw [← hfs]
      exact List.mem_cons_self _ _
    · rw [if_neg h2] at hc
      exact absurd (congrArg Prod.snd hc) (by simp)

/-- `fsMkdir` on an existing directory fails with `fileExists`, leaving
the filesystem unchanged. -/
lemma fsMkdir_exists {fs : FS} {p : Str} (hmem : normPath p ∈ fs.dirs) :
    fsMkdir fs p = (fs, some (IOErr.fileExists p)) := by
  unfold fsMkdir
  rw [if_pos (Or.inl hmem)]

lemma get?_set_of_get? {h : Heap} {i : Nat} {nd : NodeData}
    (hnd : h.get? i = some nd) (x : NodeData) : (h.set i x).get? i = some x := by
  obtain ⟨hlt, _⟩ := List.get?_eq_some.mp hnd
  exact List.get?_set_eq_of_lt _ hlt

lemma updateNode_eq_set {h : Heap} {i : Nat} {nd : NodeData}
    (hnd : h.get? i = some nd) (f : NodeData → NodeData) :
    updateNode h i f = h.set i (f nd) := by
  unfold updateNode
  rw [hnd]

lemma updateNode_comp {h : Heap} {i : Nat} {nd : NodeData}
    (hnd : h.get? i = some nd) (f g : NodeData → NodeData) :
    updateNode (updateNode h i f) i g = updateNode h i (fun x => g (f x)) := by
  rw [updateNode_eq_set hnd f,
    updateNode_eq_set (get?_set_of_get? hnd (f nd)) g,
    List.set_set, updateNode_eq_set hnd]

/-! ### Claim theorems -/

/-- C2 (code bug): constructing a node with a non-`None`, nonempty
`children` argument does not initialize the child set via `add_child`;
it raises `AttributeError`, because `__init__` only assigns
`self.children` in the `else` branch and `add_child` dereferences
`self.children` first.  Evaluated here at the failing input
`FileTree("a", "/tmp", children=["b"])`. -/
theorem c2_init_children_attribute_error :
    FileTree_init [] ("a".data) (Parent.rootP ("/tmp".data)) none
      (some [ChildArg.strArg ("b".data)]) = Except.error PyErr.attributeError := rfl

/-- C3: `create_file` on a file name absent from the file map of the node
fails with the virtual-file-not-found error and performs no filesystem
write: the equation holds for every write primitive `wr` (so the write
can never have been invoked) and returns the input filesystem unchanged;
the heap is not an output of `create_file` at all, so the in-memory state of the node is untouched by construction. -/
theorem c3_create_file_absent (h : Heap) (i : Nat) (nd : NodeData) (fname : Str)
    (hnd : h.get? i = some nd) (habs : dictGet nd.files fname = none) :
    ∀ (wr : FS → Str → Str → FS × Option IOErr) (fs : FS) (fuel : Nat),
      create_file wr h fs fuel i fname =
        (fs, some (PyErr.fileNotFoundError fname)) := by
  intro wr fs fuel
  have hgf : get_file_path h fuel i fname = none := by
    simp only [get_file_path, hnd, habs]
  simp only [create_file, hgf]

/-- Witness for C3 at a concrete node and absent name. -/
theorem c3_witness :
    ([⟨"a".data, Parent.rootP ("r".data), [("x".data, "y".data)], []⟩] : Heap).get? 0 =
        some ⟨"a".data, Parent.rootP ("r".data), [("x".data, "y".data)], []⟩ ∧
      dictGet [("x".data, "y".data)] ("z".data) = (none : Option Str) ∧
      create_file fsWrite [⟨"a".data, Parent.rootP ("r".data), [("x".data, "y".data)], []⟩]
          ⟨[], []⟩ 1 0 ("z".data) =
        (⟨[], []⟩, some (PyErr.fileNotFoundError ("z".data))) :=
  ⟨rfl, by decide,
    c3_create_file_absent
      [⟨"a".data, Parent.rootP ("r".data), [("x".data, "y".data)], []⟩] 0
      ⟨"a".data, Parent.rootP ("r".data), [("x".data, "y".data)], []⟩ ("z".data)
      rfl (by decide) fsWrite ⟨[], []⟩ 1⟩

/-- C4: when the underlying filesystem write fails, `create_file` raises
the path-resolution failure carrying the original I/O error as its
cause: the raised value is `PathNotExists e` where `e` is exactly the
error returned by the write. -/
theorem c4_create_file_write_failure (wr : FS → Str → Str → FS × Option IOErr)
    (h : Heap) (i fuel : Nat) (nd : NodeData) (fname fp content : Str)
    (fs fs2 : FS) (e : IOErr)
    (hgf : get_file_path h fuel i fname = some fp) (hfp : fp ≠ [])
    (hnd : h.get? i = some nd) (hdg : dictGet nd.files fname = some content)
    (hw : wr fs fp content = (fs2, some e)) :
    create_file wr h fs fuel i fname = (fs2, some (PyErr.pathNotExists e)) := by
  simp only [create_file, hgf, hnd, hdg, hw]
  rw [if_neg hfp]

/-- Witness for C4: a write onto an empty filesystem (missing containing
directory) fails and is wrapped. -/
theorem c4_witness :
    get_file_path [⟨"a".data, Parent.rootP ("r".data), [("f".data, "y".data)], []⟩]
        1 0 ("f".data) = some ("r/a/f".data) ∧
      fsWrite ⟨[], []⟩ ("r/a/f".data) ("y".data) =
        (⟨[], []⟩, some (IOErr.fileNotFound ("r/a/f".data))) ∧
      create_file fsWrite [⟨"a".data, Parent.rootP ("r".data), [("f".data, "y".data)], []⟩]
          ⟨[], []⟩ 1 0 ("f".data) =
        (⟨[], []⟩, some (PyErr.pathNotExists (IOErr.fileNotFound ("r/a/f".data)))) :=
  ⟨by decide, by decide,
    c4_create_file_write_failure fsWrite
      [⟨"a".data, Parent.rootP ("r".data), [("f".data, "y".data)], []⟩] 0 1
      ⟨"a".data, Parent.rootP ("r".data), [("f".data, "y".data)], []⟩
      ("f".data) ("r/a/f".data) ("y".data) ⟨[], []⟩ ⟨[], []⟩
      (IOErr.fileNotFound ("r/a/f".data))
      (by decide) (by decide) rfl (by decide) (by decide)⟩

/-- C5: `add_file` followed by `get_file_content` returns exactly the
content given, with last-write-wins semantics: successive calls compose
into one call on the concatenated entry list, the last entry for a name
in that list is what `get_file_content` returns, and names not written
keep their previous value. -/
theorem c5_add_file_last_write_wins (h : Heap) (i : Nat) (nd : NodeData)
    (hnd : h.get? i = some nd) :
    (∀ l1 l2, add_file (add_file h i l1) i l2 = add_file h i (l1 ++ l2))
  ∧ (∀ l (k : Str) (c : Str), lastVal l k = some c →
      get_file_content (add_file h i l) i k = some (some c))
  ∧ (∀ l (k : Str), lastVal l k = none →
      get_file_content (add_file h i l) i k = some (dictGet nd.files k)) := by
  refine ⟨?_, ?_, ?_⟩
  · intro l1 l2
    unfold add_file
    rw [updateNode_comp hnd]
    have hfg : (fun x : NodeData =>
        (⟨(⟨x.name, x.parent, l1.foldl (fun d p => dictSet d p.1 p.2) x.files,
            x.children⟩ : NodeData).name,
          (⟨x.name, x.parent, l1.foldl (fun d p => dictSet d p.1 p.2) x.files,
            x.children⟩ : NodeData).parent,
          l2.foldl (fun d p => dictSet d p.1 p.2)
            (⟨x.name, x.parent, l1.foldl (fun d p => dictSet d p.1 p.2) x.files,
              x.children⟩ : NodeData).files,
          (⟨x.name, x.parent, l1.foldl (fun d p => dictSet d p.1 p.2) x.files,
            x.children⟩ : NodeData).children⟩ : NodeData)) =
        (fun x : NodeData => (⟨x.name, x.parent,
          (l1 ++ l2).foldl (fun d p => dictSet d p.1 p.2) x.files, x.children⟩ :
            NodeData)) := by
      funext x
      simp [List.foldl_append]
    rw [hfg]
  · intro l k c hlv
    unfold add_file get_file_content
    rw [updateNode_get_self hnd]
    simp only [Option.map_some']
    rw [dictGet_foldl_dictSet, hlv]
  · intro l k hlv
    unfold add_file get_file_content
    rw [updateNode_get_self hnd]
    simp only [Option.map_some']
    rw [dictGet_foldl_dictSet, hlv]

/-- Witness for C5: duplicate names within one call and across calls. -/
theorem c5_witness :
    ([⟨"a".data, Parent.rootP ("r".data), [], []⟩] : Heap).get? 0 =
        some ⟨"a".data, Parent.rootP ("r".data), [], []⟩ ∧
      lastVal [("f".data, "1".data), ("f".data, "2".data)] ("f".data) =
        some ("2".data) ∧
      get_file_content
          (add_file [⟨"a".data, Parent.rootP ("r".data), [], []⟩] 0
            [("f".data, "1".data), ("f".data, "2".data)]) 0 ("f".data) =
        some (some ("2".data)) :=
  ⟨rfl, by decide,
    (c5_add_file_last_write_wins [⟨"a".data, Parent.rootP ("r".data), [], []⟩] 0
        ⟨"a".data, Parent.rootP ("r".data), [], []⟩ rfl).2.1
      [("f".data, "1".data), ("f".data, "2".data)] ("f".data) ("2".data)
      (by decide)⟩

/-- C6: `get_root` and `get_root_path` are stable under arbitrarily deep
nesting: on any parent chain of length `k` from a node down to the root
(`k = 0` being the root itself), `get_root` returns that root node and
`get_root_path` its raw path string. -/
theorem c6_get_root_stable (h : Heap) (i r : Nat) (p : Str) (k : Nat)
    (hr : RootedAt h i r p k) :
    get_root h (k + 1) i = some r ∧ get_root_path h (k + 1) i = some p := by
  induction hr with
  | base i nd p hnd hp =>
    constructor
    · simp only [get_root, hnd, hp]
    · simp only [get_root_path, hnd, hp]
  | step i pid r nd p k hnd hp hrec ih =>
    constructor
    · simp only [get_root, hnd, hp]
      exact ih.1
    · simp only [get_root_path, hnd, hp]
      exact ih.2

/-- Witness for C6 on a three-deep chain root - a - b. -/
theorem c6_witness :
    get_root
        [⟨"root".data, Parent.rootP ("rp".data), [], [("a".data, 1)]⟩,
          ⟨"a".data, Parent.nodeP 0, [], [("b".data, 2)]⟩,
          ⟨"b".data, Parent.nodeP 1, [], []⟩] 3 2 = some 0 ∧
      get_root_path
        [⟨"root".data, Parent.rootP ("rp".data), [], [("a".data, 1)]⟩,
          ⟨"a".data, Parent.nodeP 0, [], [("b".data, 2)]⟩,
          ⟨"b".data, Parent.nodeP 1, [], []⟩] 3 2 = some ("rp".data) :=
  c6_get_root_stable
    [⟨"root".data, Parent.rootP ("rp".data), [], [("a".data, 1)]⟩,
      ⟨"a".data, Parent.nodeP 0, [], [("b".data, 2)]⟩,
      ⟨"b".data, Parent.nodeP 1, [], []⟩] 2 0 ("rp".data) 2
    (RootedAt.step 2 1 0 ⟨"b".data, Parent.nodeP 1, [], []⟩ ("rp".data) 1 rfl rfl
      (RootedAt.step 1 0 0 ⟨"a".data, Parent.nodeP 0, [], [("b".data, 2)]⟩
        ("rp".data) 0 rfl rfl
        (RootedAt.base 0 ⟨"root".data, Parent.rootP ("rp".data), [], [("a".data, 1)]⟩
          ("rp".data) rfl rfl)))

/-- C9: relocating an existing node `n` via `parent.add_child(n)` sets
only the parent link of `n` and the child map of the new parent: the other
attributes of `n` are untouched, every other heap cell — the old parent and its
now-stale child entry included — is unchanged, no node is allocated, and
`n.get_path()` immediately reflects the new parent (recomputed, not
cached). -/
theorem c9_add_child_relocation (h h2 : Heap) (nid newPid : Nat)
    (nnd pnd : NodeData) (hn : h.get? nid = some nnd)
    (hp : h.get? newPid = some pnd) (hne : nid ≠ newPid)
    (hdef : h2 = add_child h newPid [ChildArg.nodeArg nid]) :
    h2.get? nid = some ⟨nnd.name, Parent.nodeP newPid, nnd.files, nnd.children⟩
  ∧ h2.get? newPid =
      some ⟨pnd.name, pnd.parent, pnd.files, dictSet pnd.children nnd.name nid⟩
  ∧ (∀ j, j ≠ nid → j ≠ newPid → h2.get? j = h.get? j)
  ∧ h2.length = h.length
  ∧ (∀ fuel pp, goodName nnd.name → chainGood h2 fuel newPid = true →
      get_path h2 fuel newPid = some pp →
      get_path h2 (fuel + 1) nid = some (pp ++ nnd.name ++ [sep])) := by
  have hup1 : (updateNode h nid
      (fun cnd => ⟨cnd.name, Parent.nodeP newPid, cnd.files, cnd.children⟩)).get? nid =
      some ⟨nnd.name, Parent.nodeP newPid, nnd.files, nnd.children⟩ :=
    updateNode_get_self hn _
  have hstep : h2 = updateNode
      (updateNode h nid (fun cnd => ⟨cnd.name, Parent.nodeP newPid, cnd.files, cnd.children⟩))
      newPid
      (fun self => ⟨self.name, self.parent, self.files,
        dictSet self.children nnd.name nid⟩) := by
    rw [hdef]
    show (match (updateNode h nid
        (fun cnd => ⟨cnd.name, Parent.nodeP newPid, cnd.files, cnd.children⟩)).get? nid with
      | some cnd => updateNode
          (updateNode h nid (fun c2 => ⟨c2.name, Parent.nodeP newPid, c2.files, c2.children⟩))
          newPid
          (fun self => ⟨self.name, self.parent, self.files,
            dictSet self.children cnd.name nid⟩)
      | none => updateNode h nid
          (fun cnd => ⟨cnd.name, Parent.nodeP newPid, cnd.files, cnd.children⟩)) = _
    rw [hup1]
  have hg1 : h2.get? nid =
      some ⟨nnd.name, Parent.nodeP newPid, nnd.files, nnd.children⟩ := by
    rw [hstep, updateNode_get_ne (fun he => hne he.symm), hup1]
  have hpmid : (updateNode h nid
      (fun cnd => ⟨cnd.name, Parent.nodeP newPid, cnd.files, cnd.children⟩)).get? newPid =
      some pnd := by
    rw [updateNode_get_ne hne]
    exact hp
  have hg2 : h2.get? newPid =
      some ⟨pnd.name, pnd.parent, pnd.files, dictSet pnd.children nnd.name nid⟩ := by
    rw [hstep, updateNode_get_self hpmid]
  refine ⟨hg1, hg2, ?_, ?_, ?_⟩
  · intro j hj1 hj2
    rw [hstep, updateNode_get_ne (fun he => hj2 he.symm),
      updateNode_get_ne (fun he => hj1 he.symm)]
  · rw [hstep, updateNode_length, updateNode_length]
  · intro fuel pp hgn hcg hpp
    exact @get_path_step h2 nid newPid fuel
      ⟨nnd.name, Parent.nodeP newPid, nnd.files, nnd.children⟩ pp hg1 rfl hgn hcg hpp

/-- Witness for C9: relocate node 1 from under node 0 to under node 2;
the old parent keeps its stale child entry, and the path follows the new
parent. -/
theorem c9_witness :
    (add_child
        [⟨"old".data, Parent.rootP ("r".data), [], [("n".data, 1)]⟩,
          ⟨"n".data, Parent.nodeP 0, [], []⟩,
          ⟨"new".data, Parent.rootP ("r".data), [], []⟩] 2
        [ChildArg.nodeArg 1]).get? 1 =
      some ⟨"n".data, Parent.nodeP 2, [], []⟩ ∧
    (add_child
        [⟨"old".data, Parent.rootP ("r".data), [], [("n".data, 1)]⟩,
          ⟨"n".data, Parent.nodeP 0, [], []⟩,
          ⟨"new".data, Parent.rootP ("r".data), [], []⟩] 2
        [ChildArg.nodeArg 1]).get? 0 =
      some ⟨"old".data, Parent.rootP ("r".data), [], [("n".data, 1)]⟩ ∧
    get_path
      (add_child
        [⟨"old".data, Parent.rootP ("r".data), [], [("n".data, 1)]⟩,
          ⟨"n".data, Parent.nodeP 0, [], []⟩,
          ⟨"new".data, Parent.rootP ("r".data), [], []⟩] 2
        [ChildArg.nodeArg 1]) 2 1 = some ("r/new/n/".data) := by
  have hc := c9_add_child_relocation
    [⟨"old".data, Parent.rootP ("r".data), [], [("n".data, 1)]⟩,
      ⟨"n".data, Parent.nodeP 0, [], []⟩,
      ⟨"new".data, Parent.rootP ("r".data), [], []⟩]
    (add_child
      [⟨"old".data, Parent.rootP ("r".data), [], [("n".data, 1)]⟩,
        ⟨"n".data, Parent.nodeP 0, [], []⟩,
        ⟨"new".data, Parent.rootP ("r".data), [], []⟩] 2
      [ChildArg.nodeArg 1]) 1 2
    ⟨"n".data, Parent.nodeP 0, [], []⟩
    ⟨"new".data, Parent.rootP ("r".data), [], []⟩
    rfl rfl (by decide) rfl
  refine ⟨hc.1, hc.2.2.1 0 (by decide) (by decide), ?_⟩
  have hlast := hc.2.2.2.2 1 ("r/new/".data) (by decide) (by decide) (by decide)
  exact hlast

/-- C1 counterexample: for the two-node tree root `a` (raw root `r`)
with child `b`, `get_path()` on the child is `r/a/b/` while the standard
path-join of the parent path (`r/a/`) with the name `b` is
`r/a/b` — the claimed equality fails by the trailing separator (and the
root case fails the same way: `r/a/` versus `pjoin r a = r/a`). -/
theorem c1_counterexample :
    get_path [⟨"a".data, Parent.rootP ("r".data), [], [("b".data, 1)]⟩,
        ⟨"b".data, Parent.nodeP 0, [], []⟩] 2 1 = some ("r/a/b/".data) ∧
      get_path [⟨"a".data, Parent.rootP ("r".data), [], [("b".data, 1)]⟩,
        ⟨"b".data, Parent.nodeP 0, [], []⟩] 1 0 = some ("r/a/".data) ∧
      ("r/a/b/".data : Str) ≠ pjoin ("r/a/".data) ("b".data) ∧
      ("r/a/".data : Str) ≠ pjoin ("r".data) ("a".data) := by
  refine ⟨by decide, by decide, by decide, by decide⟩

/-- C1 amended: for well-formed directory names, `get_path()` of a node
equals the standard path-join of the parent `get_path()` with the
name of the node, followed by one trailing separator (for a root node, the
path-join of the raw root string with the name, followed by one trailing
separator); no duplicate separator appears and the terminal segment is
kept. -/
theorem c1_get_path_join_amended (h : Heap) :
    (∀ i fuel (nd : NodeData) (p : Str), h.get? i = some nd →
      nd.parent = Parent.rootP p → goodName nd.name →
      get_path h (fuel + 1) i = some (pjoin p nd.name ++ [sep]))
  ∧ (∀ i pid fuel (nd : NodeData) (pp : Str), h.get? i = some nd →
      nd.parent = Parent.nodeP pid → goodName nd.name →
      chainGood h fuel pid = true → get_path h fuel pid = some pp →
      get_path h (fuel + 1) i = some (pjoin pp nd.name ++ [sep])) := by
  constructor
  · intro i fuel nd p hnd hp hgn
    exact get_path_root hnd hp hgn
  · intro i pid fuel nd pp hnd hp hgn hcg hpp
    have hlast : pp.getLast? = some sep := get_path_last hcg hpp
    obtain ⟨c, hc, hcne⟩ := good_head_some hgn
    have hjoin : pjoin pp nd.name = pp ++ nd.name :=
      pjoin_ends_sep hlast (by rw [hc]; simpa using hcne)
    rw [get_path_step hnd hp hgn hcg hpp, hjoin]

/-- Witness for C1 amended on the counterexample tree: the child path is
the join of the parent path and the name plus the trailing separator. -/
theorem c1_witness :
    get_path [⟨"a".data, Parent.rootP ("r".data), [], [("b".data, 1)]⟩,
        ⟨"b".data, Parent.nodeP 0, [], []⟩] 2 1 =
      some (pjoin ("r/a/".data) ("b".data) ++ [sep]) :=
  (c1_get_path_join_amended
      [⟨"a".data, Parent.rootP ("r".data), [], [("b".data, 1)]⟩,
        ⟨"b".data, Parent.nodeP 0, [], []⟩]).2 1 0 1
    ⟨"b".data, Parent.nodeP 0, [], []⟩ ("r/a/".data)
    rfl rfl (by decide) (by decide) (by decide)

/-- C10: on a well-formed chain every `get_path()` result ends with a
trailing separator (the recursion joins a final empty segment), and for a
registered file `get_file_path` is the plain concatenation of that
directory path and the file name — a single separator at the junction,
no duplication. -/
theorem c10_trailing_sep (h : Heap) (fuel i : Nat) (nd : NodeData) (p : Str)
    (hnd : h.get? i = some nd) (hcg : chainGood h fuel i = true)
    (hp : get_path h fuel i = some p) :
    p.getLast? = some sep ∧
      (∀ fname content, dictGet nd.files fname = some content →
        goodName fname → get_file_path h fuel i fname = some (p ++ fname)) := by
  refine ⟨get_path_last hcg hp, ?_⟩
  intro fname content hdg hgf
  obtain ⟨c, hc, hcne⟩ := good_head_some hgf
  have hjoin : pjoin p fname = p ++ fname :=
    pjoin_ends_sep (get_path_last hcg hp) (by rw [hc]; simpa using hcne)
  simp only [get_file_path, hnd, hdg, hp, Option.map_some']
  rw [hjoin]

/-- Witness for C10: concrete path with trailing separator and file path
with single junction separator. -/
theorem c10_witness :
    (("r/a/".data : Str).getLast? = some sep) ∧
      get_file_path [⟨"a".data, Parent.rootP ("r".data), [("f".data, "x".data)], []⟩]
        1 0 ("f".data) = some ("r/a/".data ++ "f".data) :=
  have hc := c10_trailing_sep
    [⟨"a".data, Parent.rootP ("r".data), [("f".data, "x".data)], []⟩] 1 0
    ⟨"a".data, Parent.rootP ("r".data), [("f".data, "x".data)], []⟩
    ("r/a/".data) rfl (by decide) (by decide)
  ⟨hc.1, hc.2 ("f".data) ("x".data) (by decide) (by decide)⟩

/-- C8: `mkdir()` called twice on the same tree, the created directories
left in place, fails on the second call with the directory-already-exists
error (raised at the root directory, the first one recreated): there is
no idempotent exists-skip handling in `__mkdir__`. -/
theorem c8_mkdir_twice_fails (h : Heap) (pfuel fuel : Nat) (fs fs2 : FS)
    (i r : Nat) (nd : NodeData) (p : Str)
    (hroot : get_root h pfuel i = some r) (hnd : h.get? r = some nd)
    (hp : get_path h pfuel r = some p)
    (hfirst : mkdir h pfuel fuel fs i = (fs2, none)) :
    mkdir h pfuel fuel fs2 i =
      (fs2, some (PyErr.osError (IOErr.fileExists p))) := by
  have heq1 : mkdir h pfuel fuel fs i = mkdirRec h pfuel fuel fs r := by
    simp only [mkdir, hroot]
  rw [heq1] at hfirst
  cases fuel with
  | zero => exact absurd (congrArg Prod.snd hfirst) (by simp [mkdirRec])
  | succ fuel =>
    simp only [mkdirRec, hnd, hp] at hfirst
    cases hmk : fsMkdir fs p with
    | mk fs1 r1 =>
      cases r1 with
      | some e =>
        simp only [hmk] at hfirst
        exact absurd (congrArg Prod.snd hfirst) (by simp)
      | none =>
        simp only [hmk] at hfirst
        have hmem1 : normPath p ∈ fs1.dirs := fsMkdir_ok_mem hmk
        have hle : FSle fs1
            (seqLoop (fun fs3 c => mkdirRec h pfuel fuel fs3 c.2) fs1 nd.children).1 :=
          seqLoop_rel _ (fun fs3 (c : Str × Nat) => mkdirRec_le h pfuel fuel fs3 c.2)
            _ fs1
        rw [hfirst] at hle
        have hmem2 : normPath p ∈ fs2.dirs := hle.1 _ hmem1
        have heq2 : mkdir h pfuel (fuel + 1) fs2 i = mkdirRec h pfuel (fuel + 1) fs2 r := by
          simp only [mkdir, hroot]
        rw [heq2]
        simp only [mkdirRec, hnd, hp, fsMkdir_exists hmem2]

/-- Witness for C8: a one-node tree over the existing root `r`; the
first `mkdir` creates `r/a`, the second fails with `fileExists`. -/
theorem c8_witness :
    mkdir [⟨"a".data, Parent.rootP ("r".data), [], []⟩] 1 1 ⟨["r".data], []⟩ 0 =
        (⟨["r/a".data, "r".data], []⟩, none) ∧
      mkdir [⟨"a".data, Parent.rootP ("r".data), [], []⟩] 1 1
          ⟨["r/a".data, "r".data], []⟩ 0 =
        (⟨["r/a".data, "r".data], []⟩,
          some (PyErr.osError (IOErr.fileExists ("r/a/".data)))) :=
  ⟨by decide,
    c8_mkdir_twice_fails [⟨"a".data, Parent.rootP ("r".data), [], []⟩] 1 1
      ⟨["r".data], []⟩ ⟨["r/a".data, "r".data], []⟩ 0 0
      ⟨"a".data, Parent.rootP ("r".data), [], []⟩ ("r/a/".data)
      (by decide) rfl (by decide) (by decide)⟩

/-- C7: `mkTree()` materializes from the true root (first conjunct); at
each node it first creates the directory, then writes every registered
file in order via `create_file`, then recurses into the children in
order, halting at the first error (second conjunct, the exact step
equation); and it never removes a directory or file it has created —
no rollback on failure (third conjunct). -/
theorem c7_mkTree_spec (h : Heap) (pfuel : Nat) :
    (∀ fuel fs i r, get_root h pfuel i = some r →
      mkTree h pfuel fuel fs i = mkTreeRec h pfuel fuel fs r)
  ∧ (∀ fuel fs i (nd : NodeData) (p : Str), h.get? i = some nd →
      get_path h pfuel i = some p →
      mkTreeRec h pfuel (fuel + 1) fs i =
        match fsMkdir fs p with
        | (fs1, some e) => (fs1, some (PyErr.osError e))
        | (fs1, none) =>
          match seqLoop (fun fs2 fn => create_file fsWrite h fs2 pfuel i fn) fs1
              (nd.files.map Prod.fst) with
          | (fs2, some e) => (fs2, some e)
          | (fs2, none) =>
              seqLoop (fun fs3 c => mkTreeRec h pfuel fuel fs3 c.2) fs2 nd.children)
  ∧ (∀ fuel fs i, FSle fs (mkTreeRec h pfuel fuel fs i).1) := by
  refine ⟨?_, ?_, ?_⟩
  · intro fuel fs i r hroot
    simp only [mkTree, hroot]
  · intro fuel fs i nd p hnd hp
    simp only [mkTreeRec, hnd, hp]
  · intro fuel fs i
    exact mkTreeRec_le h pfuel fuel fs i

/-- Witness for C7 on a two-node tree with one file: the call on the
child starts at the root, and the filesystem only grows. -/
theorem c7_witness :
    get_root [⟨"a".data, Parent.rootP ("r".data), [("f".data, "x".data)], [("b".data, 1)]⟩,
        ⟨"b".data, Parent.nodeP 0, [], []⟩] 2 1 = some 0 ∧
      mkTree [⟨"a".data, Parent.rootP ("r".data), [("f".data, "x".data)], [("b".data, 1)]⟩,
          ⟨"b".data, Parent.nodeP 0, [], []⟩] 2 2 ⟨["r".data], []⟩ 1 =
        mkTreeRec [⟨"a".data, Parent.rootP ("r".data), [("f".data, "x".data)], [("b".data, 1)]⟩,
          ⟨"b".data, Parent.nodeP 0, [], []⟩] 2 2 ⟨["r".data], []⟩ 0 ∧
      FSle ⟨["r".data], []⟩
        (mkTreeRec [⟨"a".data, Parent.rootP ("r".data), [("f".data, "x".data)], [("b".data, 1)]⟩,
          ⟨"b".data, Parent.nodeP 0, [], []⟩] 2 2 ⟨["r".data], []⟩ 0).1 :=
  ⟨by decide,
    (c7_mkTree_spec
        [⟨"a".data, Parent.rootP ("r".data), [("f".data, "x".data)], [("b".data, 1)]⟩,
          ⟨"b".data, Parent.nodeP 0, [], []⟩] 2).1 2 ⟨["r".data], []⟩ 1 0 (by decide),
    (c7_mkTree_spec
        [⟨"a".data, Parent.rootP ("r".data), [("f".data, "x".data)], [("b".data, 1)]⟩,
          ⟨"b".data, Parent.nodeP 0, [], []⟩] 2).2.2 2 ⟨["r".data], []⟩ 0⟩

end FileTreeModel
